import Mathlib

/-!
Shallow embedding of the bond toolkit engine
(`Project2_BondToolkit/python/engine/bond_engine.py`) and verification of its
specification.  Python floats are modelled as exact rationals `ℚ`; the float
tolerance literals `1e-12` / `1e-10` become the exact rationals `eps12` /
`eps10`.  Real-valued quantities produced by the discount-factor power
`(1 + r/m)^(-m t)` live in `ℝ`.  Python exceptions are modelled by
`Except EngineError`; the `float("nan")` sentinel of the duration/convexity
functions is modelled by `Option.none`.
-/

namespace BondToolkit

/-- Exact stand-in for the Python float literal `1e-12`. -/
def eps12 : ℚ := 1 / 10 ^ 12

/-- Exact stand-in for the Python float literal `1e-10`. -/
def eps10 : ℚ := 1 / 10 ^ 10

/-- `BondSpec` dataclass: fixed-coupon bond description. -/
structure BondSpec where
  fv : ℚ
  coupon_rate : ℚ
  maturity : ℚ
  coupon_freq : ℤ
  deriving DecidableEq, Repr

/-- `FlatYield` dataclass: nominal rate `j` compounded `m` times per year. -/
structure FlatYield where
  j : ℚ
  m : ℤ
  deriving DecidableEq, Repr

/-- `YieldCurve` dataclass: nominal zero-rate curve at pillar tenors. -/
structure YieldCurve where
  pillars : List ℚ
  rates : List ℚ
  m : ℤ
  deriving DecidableEq, Repr

/-- The `__post_init__` validation of `YieldCurve`: equal lengths, at least one
pillar, all pillars positive, strictly increasing, positive compounding. -/
def YieldCurve.Valid (c : YieldCurve) : Prop :=
  c.pillars.length = c.rates.length ∧ 1 ≤ c.pillars.length ∧
    (∀ t ∈ c.pillars, 0 < t) ∧ c.pillars.Chain' (· < ·) ∧ 0 < c.m

instance (c : YieldCurve) : Decidable c.Valid :=
  inferInstanceAs (Decidable (_ ∧ _ ∧ _ ∧ _ ∧ _))

/-- Errors raised by the engine: `ValueError` from validation, the
`InvalidRate` condition in `df`, and the `IndexError` from `times[-1]` /
`bump_key`. -/
inductive EngineError where
  | validationError
  | invalidRate
  | indexError
  deriving DecidableEq, Repr

/-- The segment-search loop of `zero_rate`: scan consecutive pillar pairs and
return the linear interpolation on the first bracketing pair. -/
def segInterp (t : ℚ) : List ℚ → List ℚ → Option ℚ
  | t0 :: t1 :: ts, r0 :: r1 :: rs =>
    if t0 ≤ t ∧ t ≤ t1 then some (r0 + (t - t0) / (t1 - t0) * (r1 - r0))
    else segInterp t (t1 :: ts) (r1 :: rs)
  | _, _ => none

/-- `YieldCurve.zero_rate`: flat extrapolation outside the pillar range,
piecewise-linear interpolation inside (falling back to the last rate if the
scan finds no segment, as the source does). -/
def YieldCurve.zero_rate (c : YieldCurve) (t : ℚ) : ℚ :=
  if t ≤ c.pillars.headI then c.rates.headI
  else if c.pillars.getLastI ≤ t then c.rates.getLastI
  else (segInterp t c.pillars c.rates).getD c.rates.getLastI

/-- The discount-factor value `(1 + r/m)^(-m t)` as a real number. -/
noncomputable def dfVal (c : YieldCurve) (t : ℚ) : ℝ :=
  ((1 + c.zero_rate t / (c.m : ℚ) : ℚ) : ℝ) ^ (-((c.m : ℝ) * (t : ℝ)))

/-- `YieldCurve.df`: compute `base = 1 + r/m`; raise `InvalidRate` when
`base ≤ 0`, otherwise return `base^(-m t)`. -/
noncomputable def YieldCurve.df (c : YieldCurve) (t : ℚ) : Except EngineError ℝ :=
  let r := c.zero_rate t
  let base : ℚ := 1 + r / (c.m : ℚ)
  if base ≤ 0 then .error .invalidRate else .ok (dfVal c t)

/-- `YieldCurve.bump_parallel`: shift every rate by `bp` basis points. -/
def YieldCurve.bump_parallel (c : YieldCurve) (bp : ℚ) : YieldCurve :=
  ⟨c.pillars, c.rates.map (fun r => r + bp / 10000), c.m⟩

/-- The in-range effect of `bump_key`: shift rate `idx` by `bp` basis points. -/
def YieldCurve.bumpKeySet (c : YieldCurve) (idx : ℕ) (bp : ℚ) : YieldCurve :=
  ⟨c.pillars, c.rates.set idx (c.rates.getD idx 0 + bp / 10000), c.m⟩

/-- `YieldCurve.bump_key`: bump a single pillar, `IndexError` out of range. -/
def YieldCurve.bump_key (c : YieldCurve) (idx : ℕ) (bp : ℚ) :
    Except EngineError YieldCurve :=
  if idx < c.rates.length then .ok (c.bumpKeySet idx bp) else .error .indexError

/-- One row of the cash-flow schedule dataframe. -/
structure CashflowRow where
  k : ℕ
  t : ℚ
  accrual : ℚ
  cashflow : ℚ
  coupon : ℚ
  deriving DecidableEq, Repr, Inhabited

/-- The row-building loop of `cashflows`: walk the time grid with the previous
time and a 1-based row index, rejecting non-increasing grids, paying
`fv * c * dt` coupons and adding the principal on rows within `eps10` of the
requested maturity `T`. -/
def mkRows (fv c T : ℚ) : ℚ → ℕ → List ℚ → Except EngineError (List CashflowRow)
  | _, _, [] => .ok []
  | tprev, i, t :: ts =>
    let dt := t - tprev
    if dt ≤ 0 then .error .validationError
    else
      let coupon := fv * c * dt
      let cf := if |t - T| < eps10 then coupon + fv else coupon
      match mkRows fv c T t (i + 1) ts with
      | .error e => .error e
      | .ok rest => .ok (⟨i, t, dt, cf, coupon⟩ :: rest)

/-- The list `[1/p, 2/p, …, n/p]` of full coupon times. -/
def fullTimes (p : ℤ) (n : ℕ) : List ℚ :=
  (List.range n).map (fun k : ℕ => ((k : ℚ) + 1) / (p : ℚ))

/-- `cashflows`: generate the cash-flow schedule with the stub policy of the
source (`stub=True` appends the true maturity when `T*p` is not an integer
within tolerance; `stub=False` forces `n_full` integer periods, reading
`times[-1]` — an `IndexError` when the list is empty). -/
def cashflows (bond : BondSpec) (stub : Bool) : Except EngineError (List CashflowRow) :=
  let fv := bond.fv
  let c := bond.coupon_rate
  let T := bond.maturity
  let p := bond.coupon_freq
  if fv ≤ 0 ∨ T ≤ 0 then .error .validationError
  else if p ≤ 0 then .error .validationError
  else if c < 0 then .error .validationError
  else
    let n_exact : ℚ := T * (p : ℚ)
    let n_full : ℤ := ⌊n_exact + eps12⌋
    let times : List ℚ := fullTimes p n_full.toNat
    if stub then
      if eps10 < |n_exact - (n_full : ℚ)| then
        let times' := if times ≠ [] ∧ |times.getLastI - T| < eps12 then times else times ++ [T]
        mkRows fv c T 0 1 times'
      else
        let times' := if times = [] ∨ eps12 < |times.getLastI - T| then times ++ [T] else times
        mkRows fv c T 0 1 times'
    else
      let T_used : ℚ := (n_full : ℚ) / (p : ℚ)
      match times.getLast? with
      | none => .error .indexError
      | some last =>
        let times' := if eps12 < |last - T_used| then times ++ [T_used] else times
        mkRows fv c T 0 1 times'

/-- A priced cash-flow row: the schedule row with `df` and `pv` columns. -/
structure PricedRow where
  k : ℕ
  t : ℚ
  accrual : ℚ
  cashflow : ℚ
  coupon : ℚ
  df : ℝ
  pv : ℝ

/-- `price_from_curve`: attach `df = curve.df(t)` and `pv = cashflow * df` to
every row, propagating the first discounting error. -/
noncomputable def price_from_curve (c : YieldCurve) :
    List CashflowRow → Except EngineError (List PricedRow)
  | [] => .ok []
  | r :: rs =>
    match c.df r.t with
    | .error e => .error e
    | .ok d =>
      match price_from_curve c rs with
      | .error e => .error e
      | .ok rest => .ok (⟨r.k, r.t, r.accrual, r.cashflow, r.coupon, d, (r.cashflow : ℝ) * d⟩ :: rest)

/-- `price`: total present value of a priced schedule. -/
noncomputable def price (l : List PricedRow) : ℝ := (l.map (fun r => r.pv)).sum

open Classical in
/-- `macaulay_duration`: `Σ t·pv / price`, the `none` sentinel when the price
is exactly zero (the source returns `float("nan")` there). -/
noncomputable def macaulay_duration (l : List PricedRow) : Option ℝ :=
  if price l = 0 then none
  else some ((l.map (fun r => (r.t : ℝ) * r.pv)).sum / price l)

/-- `modified_duration_flat`: `MacDur / (1 + j/m)`. -/
noncomputable def modified_duration_flat (macDur : ℝ) (y : FlatYield) : ℝ :=
  macDur / (1 + (y.j : ℝ) / (y.m : ℝ))

open Classical in
/-- `convexity_flat`: `((Σ pv·t·(t + 1/m)) / price) / (1 + j/m)^2`, with the
same `none` sentinel at zero price. -/
noncomputable def convexity_flat (l : List PricedRow) (y : FlatYield) : Option ℝ :=
  if price l = 0 then none
  else
    let a : ℝ := 1 + (y.j : ℝ) / (y.m : ℝ)
    some (((l.map (fun r => r.pv * (r.t : ℝ) * ((r.t : ℝ) + 1 / (y.m : ℝ)))).sum / price l) / (a * a))

/-- Result record of `effective_duration_convexity`. -/
structure EffResult where
  price : ℝ
  eff_duration : ℝ
  eff_convexity : ℝ

/-- `effective_duration_convexity`: finite-difference duration/convexity from
pricing the same schedule at the base and parallel-bumped curves. -/
noncomputable def effective_duration_convexity (bond : BondSpec) (curve : YieldCurve)
    (bump_bp : ℚ) (stub : Bool) : Except EngineError EffResult :=
  match cashflows bond stub with
  | .error e => .error e
  | .ok cf =>
    match price_from_curve curve cf with
    | .error e => .error e
    | .ok base_rows =>
      match price_from_curve (curve.bump_parallel bump_bp) cf with
      | .error e => .error e
      | .ok up_rows =>
        match price_from_curve (curve.bump_parallel (-bump_bp)) cf with
        | .error e => .error e
        | .ok dn_rows =>
          let base := price base_rows
          let up := price up_rows
          let dn := price dn_rows
          let dy : ℝ := (bump_bp : ℝ) / 10000
          .ok ⟨base, (dn - up) / (2 * base * dy), (up + dn - 2 * base) / (base * dy * dy)⟩

/-- The per-pillar loop of `key_rate_durations` (`enumerate(curve.pillars)`). -/
noncomputable def krdLoop (cf : List CashflowRow) (curve : YieldCurve) (bump_bp : ℚ)
    (base dy : ℝ) : ℕ → List ℚ → Except EngineError (List (ℚ × ℝ))
  | _, [] => .ok []
  | i, ten :: rest =>
    match curve.bump_key i bump_bp with
    | .error e => .error e
    | .ok bumped =>
      match price_from_curve bumped cf with
      | .error e => .error e
      | .ok rows =>
        match krdLoop cf curve bump_bp base dy (i + 1) rest with
        | .error e => .error e
        | .ok tail => .ok ((ten, -(price rows - base) / (base * dy)) :: tail)

/-- `key_rate_durations`: bump one pillar at a time and collect
`(pillar, krd)` pairs in pillar order. -/
noncomputable def key_rate_durations (bond : BondSpec) (curve : YieldCurve)
    (bump_bp : ℚ) (stub : Bool) : Except EngineError (List (ℚ × ℝ)) :=
  match cashflows bond stub with
  | .error e => .error e
  | .ok cf =>
    match price_from_curve curve cf with
    | .error e => .error e
    | .ok base_rows =>
      let base := price base_rows
      let dy : ℝ := (bump_bp : ℝ) / 10000
      krdLoop cf curve bump_bp base dy 0 curve.pillars

/-- Total present value of a raw schedule against a curve, written as an
explicit sum (specification-side formula used to state the analytics). -/
noncomputable def priceCF (cf : List CashflowRow) (c : YieldCurve) : ℝ :=
  (cf.map (fun r => (r.cashflow : ℝ) * dfVal c r.t)).sum

/-- All discount bases along a schedule are positive, i.e. every `df` call
made while pricing `cf` against `c` succeeds. -/
def allBasesPos (cf : List CashflowRow) (c : YieldCurve) : Prop :=
  ∀ r ∈ cf, 0 < 1 + c.zero_rate r.t / (c.m : ℚ)

instance (cf : List CashflowRow) (c : YieldCurve) : Decidable (allBasesPos cf c) :=
  inferInstanceAs (Decidable (∀ r ∈ cf, _))

/-- On a strictly increasing time grid the row loop succeeds and reproduces
the grid in the `t` column. -/
theorem mkRows_ok (fv c T : ℚ) :
    ∀ (ts : List ℚ) (tprev : ℚ) (i : ℕ), List.Chain' (· < ·) (tprev :: ts) →
      ∃ l, mkRows fv c T tprev i ts = .ok l ∧ l.map CashflowRow.t = ts := by
  intro ts
  induction ts with
  | nil => intro tprev i _; exact ⟨[], rfl, rfl⟩
  | cons t ts ih =>
    intro tprev i hch
    rw [List.chain'_cons] at hch
    obtain ⟨hlt, hch⟩ := hch
    obtain ⟨l, hl, hmap⟩ := ih t (i + 1) hch
    have hdt : ¬(t - tprev ≤ 0) := by linarith
    refine ⟨⟨i, t, t - tprev,
      if |t - T| < eps10 then fv * c * (t - tprev) + fv else fv * c * (t - tprev),
      fv * c * (t - tprev)⟩ :: l, ?_, by simp [hmap]⟩
    simp only [mkRows, if_neg hdt, hl]

/-- Row-by-row contents of the loop output: times come from the grid, indices
are consecutive from `i`, accruals are consecutive differences, coupons are
`fv*c*accrual`, and the principal is added exactly on rows within `eps10` of
the requested maturity. -/
theorem mkRows_contents (fv c T : ℚ) :
    ∀ (ts : List ℚ) (tprev : ℚ) (i : ℕ) (l : List CashflowRow),
      mkRows fv c T tprev i ts = .ok l →
      ∀ j (hj : j < l.length),
        l[j].t = ts.getD j 0 ∧ l[j].k = i + j ∧
        l[j].accrual = ts.getD j 0 - (if j = 0 then tprev else ts.getD (j - 1) 0) ∧
        l[j].coupon = fv * c * l[j].accrual ∧
        l[j].cashflow = l[j].coupon + (if |ts.getD j 0 - T| < eps10 then fv else 0) := by
  intro ts
  induction ts with
  | nil =>
    intro tprev i l hl j hj
    rw [mkRows] at hl
    cases hl
    exact absurd hj (by simp)
  | cons t ts ih =>
    intro tprev i l hl j hj
    simp only [mkRows] at hl
    by_cases hdt : t - tprev ≤ 0
    · rw [if_pos hdt] at hl
      exact absurd hl (by simp)
    · rw [if_neg hdt] at hl
      cases hrec : mkRows fv c T t (i + 1) ts with
      | error e =>
        rw [hrec] at hl
        exact absurd hl (by simp)
      | ok rest =>
        rw [hrec] at hl
        simp only [Except.ok.injEq] at hl
        subst hl
        match j with
        | 0 =>
          refine ⟨rfl, rfl, by simp, rfl, ?_⟩
          simp only [List.getElem_cons_zero, List.getD_cons_zero]
          split <;> [rfl; exact (add_zero _).symm]
        | j + 1 =>
          have hj' : j < rest.length := by
            simpa using hj
          obtain ⟨h1, h2, h3, h4, h5⟩ := ih t (i + 1) rest hrec j hj'
          refine ⟨by simpa using h1, ?_, ?_, by simpa using h4, ?_⟩
          · simpa [Nat.add_assoc, Nat.add_comm 1 j] using h2
          · rw [List.getElem_cons_succ, h3]
            match j with
            | 0 => simp
            | j + 1 => simp
          · simpa using h5

theorem fullTimes_succ (p : ℤ) (n : ℕ) :
    fullTimes p (n + 1) = fullTimes p n ++ [((n : ℚ) + 1) / (p : ℚ)] := by
  simp [fullTimes, List.range_succ]

theorem fullTimes_length (p : ℤ) (n : ℕ) : (fullTimes p n).length = n := by
  unfold fullTimes
  rw [List.length_map, List.length_range]

theorem fullTimes_getD (p : ℤ) (n j : ℕ) (hj : j < n) :
    (fullTimes p n).getD j 0 = ((j : ℚ) + 1) / (p : ℚ) := by
  have hlen : j < (fullTimes p n).length := by rwa [fullTimes_length]
  rw [List.getD_eq_getElem (fullTimes p n) 0 hlen]
  simp [fullTimes]

/-- The full-period grid prefixed by `0` is strictly increasing, and its last
entry is `n/p`. -/
theorem chain'_zero_fullTimes (p : ℤ) (hp : 0 < p) (n : ℕ) :
    List.Chain' (· < ·) (0 :: fullTimes p n) ∧
      (0 :: fullTimes p n).getLast? = some ((n : ℚ) / (p : ℚ)) := by
  have hp' : (0 : ℚ) < (p : ℚ) := by exact_mod_cast hp
  induction n with
  | zero => simp [fullTimes]
  | succ n ih =>
    obtain ⟨ih1, ih2⟩ := ih
    have hcons : (0 : ℚ) :: fullTimes p (n + 1) =
        ((0 : ℚ) :: fullTimes p n) ++ [((n : ℚ) + 1) / (p : ℚ)] := by
      rw [fullTimes_succ, List.cons_append]
    constructor
    · rw [hcons, List.chain'_append]
      refine ⟨ih1, List.chain'_singleton _, ?_⟩
      intro x hx y hy
      rw [ih2] at hx
      simp only [Option.mem_def, Option.some.injEq] at hx
      simp only [List.head?_cons, Option.mem_def, Option.some.injEq] at hy
      subst hx; subst hy
      exact (div_lt_div_iff_of_pos_right hp').mpr (by linarith)
    · rw [hcons, List.getLast?_concat]
      norm_cast

theorem floor_add_eps12 (n : ℕ) : ⌊(n : ℚ) + eps12⌋ = (n : ℤ) := by
  rw [Int.floor_eq_iff]
  constructor
  · push_cast
    norm_num [eps12]
  · push_cast
    norm_num [eps12]

theorem fullTimes_ne_nil (p : ℤ) (n : ℕ) (hn : 1 ≤ n) : fullTimes p n ≠ [] := by
  have : 0 < (fullTimes p n).length := by rw [fullTimes_length]; omega
  exact List.length_pos.mp this

theorem fullTimes_getLast? (p : ℤ) (n : ℕ) (hn : 1 ≤ n) :
    (fullTimes p n).getLast? = some ((n : ℚ) / (p : ℚ)) := by
  obtain ⟨m, rfl⟩ : ∃ m, n = m + 1 := ⟨n - 1, by omega⟩
  rw [fullTimes_succ, List.getLast?_concat]
  norm_cast

theorem fullTimes_getLastI (p : ℤ) (n : ℕ) (hn : 1 ≤ n) :
    (fullTimes p n).getLastI = (n : ℚ) / (p : ℚ) := by
  rw [List.getLastI_eq_getLast?, fullTimes_getLast? p n hn, Option.iget_some]

/-- C8: when `maturity * frequency` equals the integer `n`, `cashflows`
produces exactly `n` rows whose times are `1/p, 2/p, …, n/p = maturity`, for
both stub settings. -/
theorem cashflows_integral_spec (bond : BondSpec) (n : ℕ)
    (hfv : 0 < bond.fv) (hc : 0 ≤ bond.coupon_rate) (hT : 0 < bond.maturity)
    (hp : 0 < bond.coupon_freq)
    (hn : bond.maturity * (bond.coupon_freq : ℚ) = (n : ℚ)) (stub : Bool) :
    ∃ l, cashflows bond stub = .ok l ∧
      l.map CashflowRow.t = fullTimes bond.coupon_freq n ∧ l.length = n := by
  obtain ⟨fv, c, T, p⟩ := bond
  simp only at hfv hc hT hp hn ⊢
  have hp' : (0 : ℚ) < (p : ℚ) := by exact_mod_cast hp
  have hpne : (p : ℚ) ≠ 0 := ne_of_gt hp'
  have hn1 : 1 ≤ n := by
    by_contra h
    have hn0 : n = 0 := by omega
    rw [hn0] at hn
    simp only [Nat.cast_zero] at hn
    nlinarith
  have hTn : T = (n : ℚ) / (p : ℚ) := by
    field_simp
    linarith [hn]
  have hfl : ⌊T * (p : ℚ) + eps12⌋ = (n : ℤ) := by rw [hn]; exact floor_add_eps12 n
  have hchain := (chain'_zero_fullTimes p hp n).1
  obtain ⟨l, hok, hmap⟩ := mkRows_ok fv c T (fullTimes p n) 0 1 hchain
  have hlen : l.length = n := by
    have := congrArg List.length hmap
    simpa [fullTimes_length] using this
  refine ⟨l, ?_, hmap, hlen⟩
  have hval1 : ¬(fv ≤ 0 ∨ T ≤ 0) := by push_neg; exact ⟨hfv, hT⟩
  have hval2 : ¬(p ≤ 0) := by omega
  have hval3 : ¬(c < 0) := by linarith
  simp only [cashflows, hn, floor_add_eps12, Int.toNat_natCast, Int.cast_natCast,
    if_neg hval1, if_neg hval2, if_neg hval3]
  cases stub with
  | true =>
    rw [if_pos rfl]
    have h1 : ¬(eps10 < |(n : ℚ) - (n : ℚ)|) := by norm_num [eps10]
    rw [if_neg h1]
    have h2 : ¬(fullTimes p n = [] ∨ eps12 < |(fullTimes p n).getLastI - T|) := by
      push_neg
      refine ⟨fullTimes_ne_nil p n hn1, ?_⟩
      rw [fullTimes_getLastI p n hn1, ← hTn]
      norm_num [eps12]
    rw [if_neg h2]
    exact hok
  | false =>
    rw [if_neg (by simp)]
    rw [fullTimes_getLast? p n hn1]
    show mkRows fv c T 0 1
        (if eps12 < |(n : ℚ) / (p : ℚ) - (n : ℚ) / (p : ℚ)| then
          fullTimes p n ++ [(n : ℚ) / (p : ℚ)]
        else fullTimes p n) = Except.ok l
    have h3 : ¬(eps12 < |(n : ℚ) / (p : ℚ) - (n : ℚ) / (p : ℚ)|) := by
      norm_num [eps12]
    rw [if_neg h3]
    exact hok

/-- C8 witness: a two-year semiannual bond (`T*p = 4`) under either stub
setting. -/
theorem cashflows_integral_spec_witness :
    ∃ l, cashflows ⟨100, 1/20, 2, 2⟩ true = .ok l ∧
      l.map CashflowRow.t = fullTimes 2 4 ∧ l.length = 4 :=
  cashflows_integral_spec ⟨100, 1/20, 2, 2⟩ 4 (by norm_num) (by norm_num)
    (by norm_num) (by norm_num) (by norm_num) true

/-- C2 (amended): with `allowStub=true`, a non-integer period count whose stub
length `T - n/p` exceeds the `eps10` cash-flow tolerance produces the full
periods `1/p..n/p` plus a stub row at the true maturity; every row has
`accrual = t_k - t_(k-1)` (`t_0 = 0`), `coupon = fv*c*accrual`,
`cashflow = coupon`, and only the final row adds the face value. -/
theorem cashflows_stub_spec (bond : BondSpec) (n : ℕ)
    (hfv : 0 < bond.fv) (hc : 0 ≤ bond.coupon_rate) (hT : 0 < bond.maturity)
    (hp : 0 < bond.coupon_freq)
    (hnf : ⌊bond.maturity * (bond.coupon_freq : ℚ) + eps12⌋ = (n : ℤ))
    (hgap : (n : ℚ) / (bond.coupon_freq : ℚ) + eps10 < bond.maturity) :
    ∃ l, cashflows bond true = .ok l ∧
      l.map CashflowRow.t = fullTimes bond.coupon_freq n ++ [bond.maturity] ∧
      l.length = n + 1 ∧
      ∀ j (hj : j < l.length),
        l[j].k = j + 1 ∧
        l[j].accrual = l[j].t - (if j = 0 then 0 else (l.getD (j - 1) default).t) ∧
        l[j].coupon = bond.fv * bond.coupon_rate * l[j].accrual ∧
        l[j].cashflow = l[j].coupon + (if j = n then bond.fv else 0) := by
  obtain ⟨fv, c, T, p⟩ := bond
  simp only at hfv hc hT hp hnf hgap ⊢
  have hp' : (0 : ℚ) < (p : ℚ) := by exact_mod_cast hp
  have hp1 : (1 : ℚ) ≤ (p : ℚ) := by exact_mod_cast hp
  have heps10 : (0 : ℚ) < eps10 := by norm_num [eps10]
  have heps1210 : eps12 < eps10 := by norm_num [eps12, eps10]
  have hnpT : (n : ℚ) / (p : ℚ) < T := by linarith
  set ts : List ℚ := fullTimes p n ++ [T] with hts
  have hch : List.Chain' (· < ·) ((0 : ℚ) :: ts) := by
    have h := chain'_zero_fullTimes p hp n
    have hsplit : (0 : ℚ) :: ts = ((0 : ℚ) :: fullTimes p n) ++ [T] := by
      rw [hts, List.cons_append]
    rw [hsplit, List.chain'_append]
    refine ⟨h.1, List.chain'_singleton _, ?_⟩
    intro x hx y hy
    rw [h.2] at hx
    simp only [Option.mem_def, Option.some.injEq] at hx
    simp only [List.head?_cons, Option.mem_def, Option.some.injEq] at hy
    subst hx; subst hy
    exact hnpT
  obtain ⟨l, hok, hmap⟩ := mkRows_ok fv c T ts 0 1 hch
  have hlen : l.length = n + 1 := by
    have := congrArg List.length hmap
    simpa [hts, fullTimes_length] using this
  have hcontents := mkRows_contents fv c T ts 0 1 l hok
  have htsD : ∀ j, j < n → ts.getD j 0 = ((j : ℚ) + 1) / (p : ℚ) := by
    intro j hj
    rw [hts, List.getD_append _ _ _ _ (by rwa [fullTimes_length]), fullTimes_getD p n j hj]
  have htsN : ts.getD n 0 = T := by
    rw [hts, List.getD_append_right _ _ _ _ (by rw [fullTimes_length])]
    simp [fullTimes_length]
  refine ⟨l, ?_, hmap, hlen, ?_⟩
  · -- the generator takes the stub branch and appends the true maturity
    have hval1 : ¬(fv ≤ 0 ∨ T ≤ 0) := by push_neg; exact ⟨hfv, hT⟩
    have hval2 : ¬(p ≤ 0) := by omega
    have hval3 : ¬(c < 0) := by linarith
    have hbig : eps10 < |T * (p : ℚ) - ((n : ℤ) : ℚ)| := by
      push_cast
      have hmul : ((n : ℚ) / (p : ℚ) + eps10) * (p : ℚ) < T * (p : ℚ) :=
        mul_lt_mul_of_pos_right hgap hp'
      have hdiv : ((n : ℚ) / (p : ℚ)) * (p : ℚ) = (n : ℚ) := by field_simp
      have h10 : eps10 * 1 ≤ eps10 * (p : ℚ) :=
        mul_le_mul_of_nonneg_left hp1 (le_of_lt heps10)
      have hTp : eps10 < T * (p : ℚ) - (n : ℚ) := by nlinarith
      rw [abs_of_pos (by linarith)]
      exact hTp
    have hcond : ¬(fullTimes p n ≠ [] ∧ |(fullTimes p n).getLastI - T| < eps12) := by
      rcases Nat.eq_zero_or_pos n with h0 | h1
      · subst h0
        simp [fullTimes]
      · rintro ⟨-, habs2⟩
        rw [fullTimes_getLastI p n h1, abs_sub_lt_iff] at habs2
        have := habs2.2
        linarith
    simp only [cashflows, hnf, Int.toNat_natCast]
    rw [if_neg hval1, if_neg hval2, if_neg hval3, if_pos trivial, if_pos hbig, if_neg hcond]
    exact hok
  · -- per-row contents
    intro j hj
    have hjn : j < n + 1 := by rwa [hlen] at hj
    obtain ⟨h1, h2, h3, h4, h5⟩ := hcontents j hj
    refine ⟨by rw [h2, Nat.add_comm], ?_, h4, ?_⟩
    · rw [h3, ← h1]
      rcases Nat.eq_zero_or_pos j with h0 | hjpos
      · subst h0; simp
      · have hj1 : j - 1 < l.length := by omega
        rw [if_neg (by omega), if_neg (by omega),
          List.getD_eq_getElem l default hj1, (hcontents (j - 1) hj1).1]
    · rw [h5]
      rcases Nat.lt_or_ge j n with hlt | hge
      · have hne : j ≠ n := by omega
        rw [if_neg hne, htsD j hlt]
        have hj1n : ((j : ℚ) + 1) ≤ (n : ℚ) := by exact_mod_cast Nat.succ_le_of_lt hlt
        have hjp : ((j : ℚ) + 1) / (p : ℚ) ≤ (n : ℚ) / (p : ℚ) :=
          (div_le_div_iff_of_pos_right hp').mpr hj1n
        have hnot : ¬(|((j : ℚ) + 1) / (p : ℚ) - T| < eps10) := by
          rw [abs_sub_comm, abs_of_pos (by linarith)]
          linarith
        rw [if_neg hnot]
      · have hj_eq : j = n := by omega
        subst hj_eq
        rw [if_pos rfl, htsN]
        simp [heps10]

/-- C2 witness: the spec's own example `maturity=2.3, frequency=2`. -/
theorem cashflows_stub_spec_witness :
    ∃ l, cashflows ⟨100, 1/20, 23/10, 2⟩ true = .ok l ∧
      l.map CashflowRow.t = fullTimes 2 4 ++ [23/10] ∧
      l.length = 5 ∧
      ∀ j (hj : j < l.length),
        l[j].k = j + 1 ∧
        l[j].accrual = l[j].t - (if j = 0 then 0 else (l.getD (j - 1) default).t) ∧
        l[j].coupon = 100 * (1/20) * l[j].accrual ∧
        l[j].cashflow = l[j].coupon + (if j = 4 then 100 else 0) :=
  cashflows_stub_spec ⟨100, 1/20, 23/10, 2⟩ 4 (by norm_num) (by norm_num) (by norm_num)
    (by norm_num)
    (by rw [Int.floor_eq_iff]; constructor <;> norm_num [eps12])
    (by norm_num [eps10])

/-- C2 counterexample to the unamended claim: for
`maturity = 1 + 3/(4*10^10)`, `frequency = 2` the period count is non-integer
by the code's own `eps10` test (last conjunct), yet the second row — a
non-final full-period row — receives the face value on top of its coupon,
because its time `1.0` is within `eps10` of the maturity. -/
theorem cashflows_stub_counterexample :
    ∃ l, cashflows ⟨100, 1/20, 1 + 3 / (4 * 10 ^ 10), 2⟩ true = .ok l ∧
      l.length = 3 ∧
      (l.getD 1 default).coupon = 5 / 2 ∧
      (l.getD 1 default).cashflow = 5 / 2 + 100 ∧
      eps10 < |(1 + 3 / (4 * 10 ^ 10) : ℚ) * ((2 : ℤ) : ℚ) - ((2 : ℤ) : ℚ)| := by
  have hfl : ⌊(1 + 3 / (4 * 10 ^ 10) : ℚ) * ((2 : ℤ) : ℚ) + eps12⌋ = (2 : ℤ) := by
    rw [Int.floor_eq_iff]
    constructor <;> norm_num [eps12]
  have hft : fullTimes (2 : ℤ) 2 = [1/2, 1] := by
    norm_num [fullTimes, List.range_succ]
  have hc1 : eps10 < |(1 + 3 / (4 * 10 ^ 10) : ℚ) * ((2 : ℤ) : ℚ) - ((2 : ℤ) : ℚ)| := by
    rw [abs_of_pos] <;> norm_num [eps10]
  have hgl : ([1/2, 1] : List ℚ).getLastI = 1 := rfl
  have hc2 : ¬(([1/2, 1] : List ℚ) ≠ [] ∧
      |([1/2, 1] : List ℚ).getLastI - (1 + 3 / (4 * 10 ^ 10) : ℚ)| < eps12) := by
    rw [hgl]
    rintro ⟨-, h⟩
    rw [abs_sub_lt_iff] at h
    have := h.2
    norm_num [eps12] at this
  refine ⟨[⟨1, 1/2, 1/2, 5/2, 5/2⟩, ⟨2, 1, 1/2, 5/2 + 100, 5/2⟩,
    ⟨3, 1 + 3 / (4 * 10 ^ 10), 3 / (4 * 10 ^ 10), 100 * (1/20) * (3 / (4 * 10 ^ 10)) + 100,
      100 * (1/20) * (3 / (4 * 10 ^ 10))⟩], ?_, rfl, rfl, rfl, hc1⟩
  have htn : Int.toNat (2 : ℤ) = 2 := rfl
  simp only [cashflows, hfl, htn, hft]
  rw [if_neg (by norm_num), if_neg (by norm_num), if_neg (by norm_num), if_pos trivial,
    if_pos hc1, if_neg hc2]
  norm_num [mkRows, eps10, abs_sub_lt_iff, le_abs, abs_lt]

/-- C1: at `maturity=2.3, frequency=2` with `allowStub=false` the schedule
has exactly the full-period times `0.5, 1.0, 1.5, 2.0` (effective maturity
`2.0`), but no row — in particular not the final one — receives the face
value: the principal test compares against the requested maturity `2.3`, so
the redemption cash flow is dropped entirely (final cashflow `2.5`, not
`102.5`). -/
theorem cashflows_nostub_drops_principal :
    cashflows ⟨100, 1/20, 23/10, 2⟩ false =
      .ok [⟨1, 1/2, 1/2, 5/2, 5/2⟩, ⟨2, 1, 1/2, 5/2, 5/2⟩,
        ⟨3, 3/2, 1/2, 5/2, 5/2⟩, ⟨4, 2, 1/2, 5/2, 5/2⟩] := by
  have hfl : ⌊(23/10 : ℚ) * ((2 : ℤ) : ℚ) + eps12⌋ = (4 : ℤ) := by
    rw [Int.floor_eq_iff]
    constructor <;> norm_num [eps12]
  have htn : Int.toNat (4 : ℤ) = 4 := rfl
  have hft : fullTimes (2 : ℤ) 4 = [1/2, 1, 3/2, 2] := by
    norm_num [fullTimes, List.range_succ]
  have hgl : ([1/2, 1, 3/2, 2] : List ℚ).getLast? = some 2 := rfl
  simp only [cashflows, hfl, htn, hft, hgl]
  rw [if_neg (by norm_num), if_neg (by norm_num), if_neg (by norm_num), if_neg (by simp),
    if_neg (by norm_num [eps12])]
  norm_num [mkRows, eps10, abs_sub_lt_iff, le_abs, abs_lt]

/-- C10 (amended): when `maturity*frequency + eps12 < 1` (so the code's
tolerant floor is zero), `allowStub=false` reads the last element of an empty
time list and fails with the index error instead of the documented
`ValidationError` or a valid schedule, while `allowStub=true` yields a single
stub row at the true maturity carrying coupon and principal. -/
theorem cashflows_tiny_spec (bond : BondSpec)
    (hfv : 0 < bond.fv) (hc : 0 ≤ bond.coupon_rate) (hT : 0 < bond.maturity)
    (hp : 0 < bond.coupon_freq)
    (hsmall : bond.maturity * (bond.coupon_freq : ℚ) + eps12 < 1) :
    cashflows bond false = .error .indexError ∧
    cashflows bond true = .ok [⟨1, bond.maturity, bond.maturity,
      bond.fv * bond.coupon_rate * bond.maturity + bond.fv,
      bond.fv * bond.coupon_rate * bond.maturity⟩] := by
  obtain ⟨fv, c, T, p⟩ := bond
  simp only at hfv hc hT hp hsmall ⊢
  have hp' : (0 : ℚ) < (p : ℚ) := by exact_mod_cast hp
  have hfl : ⌊T * (p : ℚ) + eps12⌋ = (0 : ℤ) := by
    rw [Int.floor_eq_iff]
    constructor
    · simp only [Int.cast_zero]
      have : (0 : ℚ) < T * (p : ℚ) := mul_pos hT hp'
      norm_num [eps12]
      linarith
    · push_cast
      linarith
  have htn : Int.toNat (0 : ℤ) = 0 := rfl
  have hft : fullTimes p 0 = [] := rfl
  have hval1 : ¬(fv ≤ 0 ∨ T ≤ 0) := by push_neg; exact ⟨hfv, hT⟩
  have hval2 : ¬(p ≤ 0) := by omega
  have hval3 : ¬(c < 0) := by linarith
  have hrow : mkRows fv c T 0 1 [T] =
      .ok [⟨1, T, T, fv * c * T + fv, fv * c * T⟩] := by
    have hdt0 : ¬(T - 0 ≤ 0) := by rw [sub_zero]; exact not_le.mpr hT
    have habsT : |T - T| < eps10 := by rw [sub_self, abs_zero]; norm_num [eps10]
    simp only [mkRows]
    rw [if_neg hdt0, if_pos habsT]
    simp
  constructor
  · simp only [cashflows, hfl, htn, hft]
    rw [if_neg hval1, if_neg hval2, if_neg hval3, if_neg (by simp)]
    rfl
  · simp only [cashflows, hfl, htn, hft]
    rw [if_neg hval1, if_neg hval2, if_neg hval3, if_pos (by trivial)]
    by_cases hbig : eps10 < |T * (p : ℚ) - ((0 : ℤ) : ℚ)|
    · rw [if_pos hbig, if_neg (by simp), List.nil_append]
      exact hrow
    · rw [if_neg hbig, if_pos (Or.inl trivial), List.nil_append]
      exact hrow

/-- C10 witness: a three-month zero-period bond (`T*p = 1/2`). -/
theorem cashflows_tiny_spec_witness :
    cashflows ⟨100, 1/20, 1/4, 2⟩ false = .error .indexError ∧
    cashflows ⟨100, 1/20, 1/4, 2⟩ true = .ok [⟨1, 1/4, 1/4,
      100 * (1/20) * (1/4) + 100, 100 * (1/20) * (1/4)⟩] :=
  cashflows_tiny_spec ⟨100, 1/20, 1/4, 2⟩ (by norm_num) (by norm_num) (by norm_num)
    (by norm_num) (by norm_num [eps12])

/-- C10 counterexample to the unamended claim: `maturity*frequency` strictly
between `0` and `1` does not always produce the index error — at
`T = 1 - 10^(-13)`, `p = 1` the tolerant floor is `1`, and `allowStub=false`
returns a valid one-row schedule. -/
theorem cashflows_tiny_counterexample :
    (0 : ℚ) < (1 - 1/10^13 : ℚ) * ((1 : ℤ) : ℚ) ∧
    ((1 - 1/10^13 : ℚ) * ((1 : ℤ) : ℚ) < 1) ∧
    cashflows ⟨100, 0, 1 - 1/10^13, 1⟩ false = .ok [⟨1, 1, 1, 100, 0⟩] := by
  refine ⟨by norm_num, by norm_num, ?_⟩
  have hfl : ⌊(1 - 1/10^13 : ℚ) * ((1 : ℤ) : ℚ) + eps12⌋ = (1 : ℤ) := by
    rw [Int.floor_eq_iff]
    constructor <;> norm_num [eps12]
  have htn : Int.toNat (1 : ℤ) = 1 := rfl
  have hft : fullTimes (1 : ℤ) 1 = [1] := by
    norm_num [fullTimes, List.range_succ]
  have hgl : ([1] : List ℚ).getLast? = some 1 := rfl
  simp only [cashflows, hfl, htn, hft, hgl]
  rw [if_neg (by norm_num), if_neg (by norm_num), if_neg (by norm_num), if_neg (by simp),
    if_neg (by norm_num [eps12])]
  norm_num [mkRows, eps10, abs_sub_lt_iff, le_abs, abs_lt]

theorem headI_eq_getElem (l : List ℚ) (h : 0 < l.length) : l.headI = l[0] := by
  cases l with
  | nil => simp at h
  | cons a l => rfl

theorem getLastI_eq_getElem (l : List ℚ) (h : 0 < l.length)
    (h1 : l.length - 1 < l.length) : l.getLastI = l[l.length - 1] := by
  have hne : l ≠ [] := by
    cases l with
    | nil => simp at h
    | cons a l => simp
  rw [List.getLastI_eq_getLast?, List.getLast?_eq_getLast l hne, Option.iget_some,
    List.getLast_eq_getElem]

theorem chain'_getElem_lt (l : List ℚ) (hch : List.Chain' (· < ·) l) (i j : ℕ)
    (hij : i < j) (hj : j < l.length) : l[i] < l[j] := by
  have hpw := List.chain'_iff_pairwise.mp hch
  exact List.pairwise_iff_getElem.mp hpw i j (by omega) hj hij

/-- The segment scan stops at the first bracketing pillar pair: if
`pillars[i] < t ≤ pillars[i+1]` on a strictly increasing pillar list, it
returns the linear interpolation on segment `i`. -/
theorem segInterp_spec (t : ℚ) :
    ∀ (i : ℕ) (ps rs : List ℚ), List.Chain' (· < ·) ps →
      ∀ (h1 : i + 1 < ps.length) (h2 : i + 1 < rs.length),
      ps[i] < t → t ≤ ps[i + 1] →
      segInterp t ps rs =
        some (rs[i] + (t - ps[i]) / (ps[i + 1] - ps[i]) * (rs[i + 1] - rs[i])) := by
  intro i
  induction i with
  | zero =>
    intro ps rs hch h1 h2 hlo hhi
    match ps, rs, h1, h2 with
    | p0 :: p1 :: ps, r0 :: r1 :: rs, _, _ =>
      simp only [List.getElem_cons_zero, List.getElem_cons_succ] at hlo hhi ⊢
      rw [segInterp, if_pos ⟨le_of_lt hlo, hhi⟩]
  | succ i ih =>
    intro ps rs hch h1 h2 hlo hhi
    match ps, rs, h1, h2 with
    | p0 :: p1 :: ps, r0 :: r1 :: rs, h1, h2 =>
      simp only [List.getElem_cons_succ] at hlo hhi ⊢
      have hch' : List.Chain' (· < ·) (p1 :: ps) := (List.chain'_cons.mp hch).2
      have h1' : i + 1 < (p1 :: ps).length := by
        simp only [List.length_cons] at h1 ⊢
        omega
      have h2' : i + 1 < (r1 :: rs).length := by
        simp only [List.length_cons] at h2 ⊢
        omega
      have hib : i < (p1 :: ps).length := by
        simp only [List.length_cons] at h1' ⊢
        omega
      have hp1 : p1 ≤ (p1 :: ps)[i] := by
        rcases Nat.eq_zero_or_pos i with h0 | hpos
        · subst h0; simp
        · exact le_of_lt (chain'_getElem_lt (p1 :: ps) hch' 0 i hpos hib)
      have hguard : ¬(p0 ≤ t ∧ t ≤ p1) := by
        rintro ⟨-, hle⟩
        have : p1 < t := lt_of_le_of_lt hp1 hlo
        linarith
      rw [segInterp, if_neg hguard]
      exact ih (p1 :: ps) (r1 :: rs) hch' h1' h2' hlo hhi

theorem getLastI_eq_getD (l : List ℚ) (h : 0 < l.length) :
    l.getLastI = l.getD (l.length - 1) 0 := by
  rw [getLastI_eq_getElem l h (by omega), List.getD_eq_getElem _ _ (by omega)]

/-- On a valid curve, `zero_rate` at any `t` with
`pillars[i] < t ≤ pillars[i+1]` is the linear interpolation on segment `i`. -/
theorem zero_rate_between (c : YieldCurve) (hv : c.Valid) (t : ℚ) (i : ℕ)
    (hi0 : i < c.pillars.length) (hi1 : i + 1 < c.pillars.length)
    (hlo : c.pillars[i] < t) (hhi : t ≤ c.pillars[i + 1]) :
    c.zero_rate t = c.rates.getD i 0 +
      (t - c.pillars[i]) / (c.pillars[i + 1] - c.pillars[i]) *
        (c.rates.getD (i + 1) 0 - c.rates.getD i 0) := by
  obtain ⟨hlen, hone, hpos, hch, hm⟩ := hv
  have hlen0 : 0 < c.pillars.length := by omega
  have hlast : c.pillars.length - 1 < c.pillars.length := by omega
  have hrlen0 : 0 < c.rates.length := by omega
  have hri : i < c.rates.length := by omega
  have hri1 : i + 1 < c.rates.length := by omega
  have hhead : c.pillars.headI = c.pillars[0] := headI_eq_getElem _ hlen0
  have h0i : c.pillars[0] ≤ c.pillars[i] := by
    rcases Nat.eq_zero_or_pos i with h0 | hpos'
    · subst h0; exact le_refl _
    · exact le_of_lt (chain'_getElem_lt _ hch 0 i hpos' hi0)
  have hg1 : ¬(t ≤ c.pillars.headI) := by
    rw [hhead]
    push_neg
    exact lt_of_le_of_lt h0i hlo
  rw [YieldCurve.zero_rate, if_neg hg1]
  by_cases hg2 : c.pillars.getLastI ≤ t
  · -- flat extrapolation fires: `t` must equal the last pillar `pillars[i+1]`,
    -- where the interpolation formula also produces `rates[i+1]`
    rw [if_pos hg2]
    have hglast : c.pillars.getLastI = c.pillars[c.pillars.length - 1] :=
      getLastI_eq_getElem _ hlen0 hlast
    have hle : c.pillars[i + 1] ≤ c.pillars[c.pillars.length - 1] := by
      rcases Nat.lt_or_ge (i + 1) (c.pillars.length - 1) with hlt | hge
      · exact le_of_lt (chain'_getElem_lt _ hch _ _ hlt hlast)
      · have hix : c.pillars.length - 1 ≤ i + 1 := hge
        have hix2 : i + 1 ≤ c.pillars.length - 1 := by omega
        have hixe : i + 1 = c.pillars.length - 1 := le_antisymm hix2 hix
        exact le_of_le_of_eq (le_refl _) (by congr 1)
    have hteq : t = c.pillars[c.pillars.length - 1] :=
      le_antisymm (le_trans hhi hle) (le_of_le_of_eq hg2 rfl |>.trans_eq rfl |> fun h => by
        rw [hglast] at hg2; exact hg2)
    have hpi1 : c.pillars[i + 1] = t := le_antisymm (hteq ▸ hle) hhi
    have hidx : i + 1 = c.pillars.length - 1 := by
      by_contra hne
      have hlt : i + 1 < c.pillars.length - 1 := by omega
      have hstep := chain'_getElem_lt _ hch (i + 1) (c.pillars.length - 1) hlt hlast
      rw [hpi1, ← hteq] at hstep
      exact lt_irrefl _ hstep
    rw [getLastI_eq_getD _ hrlen0]
    have hidx2 : c.rates.length - 1 = i + 1 := by omega
    rw [hidx2]
    rw [hpi1]
    have htne : t - c.pillars[i] ≠ 0 := sub_ne_zero.mpr (ne_of_gt hlo)
    field_simp
  · rw [if_neg hg2]
    rw [segInterp_spec t i c.pillars c.rates hch hi1 hri1 hlo hhi]
    rw [Option.getD_some, List.getD_eq_getElem _ _ hri, List.getD_eq_getElem _ _ hri1]

theorem headI_eq_getD (l : List ℚ) (h : 0 < l.length) : l.headI = l.getD 0 0 := by
  rw [headI_eq_getElem l h, List.getD_eq_getElem _ _ h]

theorem zero_rate_between_getD (c : YieldCurve) (hv : c.Valid) (t : ℚ) (i : ℕ)
    (hi1 : i + 1 < c.pillars.length)
    (hlo : c.pillars.getD i 0 < t) (hhi : t ≤ c.pillars.getD (i + 1) 0) :
    c.zero_rate t = c.rates.getD i 0 +
      (t - c.pillars.getD i 0) / (c.pillars.getD (i + 1) 0 - c.pillars.getD i 0) *
        (c.rates.getD (i + 1) 0 - c.rates.getD i 0) := by
  have hi0 : i < c.pillars.length := by omega
  have e0 := List.getD_eq_getElem c.pillars 0 hi0
  have e1 := List.getD_eq_getElem c.pillars 0 hi1
  rw [e0] at hlo ⊢
  rw [e1] at hhi ⊢
  exact zero_rate_between c hv t i hi0 hi1 hlo hhi

/-- C3: on a valid curve, `zero_rate` returns the exact rate at a pillar, the
average rate at a midpoint of adjacent pillars, the boundary rates at or
beyond the first/last pillar, and the linear interpolation strictly between
adjacent pillars. -/
theorem zero_rate_spec (c : YieldCurve) (hv : c.Valid) :
    (∀ i, i < c.pillars.length →
      c.zero_rate (c.pillars.getD i 0) = c.rates.getD i 0) ∧
    (∀ i, i + 1 < c.pillars.length →
      c.zero_rate ((c.pillars.getD i 0 + c.pillars.getD (i + 1) 0) / 2) =
        (c.rates.getD i 0 + c.rates.getD (i + 1) 0) / 2) ∧
    (∀ t : ℚ, (t ≤ c.pillars.headI → c.zero_rate t = c.rates.headI) ∧
      (c.pillars.getLastI ≤ t → c.zero_rate t = c.rates.getLastI)) ∧
    (∀ (t : ℚ) (i : ℕ), i + 1 < c.pillars.length →
      c.pillars.getD i 0 < t → t < c.pillars.getD (i + 1) 0 →
      c.zero_rate t = c.rates.getD i 0 +
        (t - c.pillars.getD i 0) / (c.pillars.getD (i + 1) 0 - c.pillars.getD i 0) *
          (c.rates.getD (i + 1) 0 - c.rates.getD i 0)) := by
  have hv' : c.Valid := hv
  obtain ⟨hlen, hone, hpos, hch, hm⟩ := hv
  have hadj : ∀ i, i + 1 < c.pillars.length →
      c.pillars.getD i 0 < c.pillars.getD (i + 1) 0 := by
    intro i hi1
    have hi0 : i < c.pillars.length := by omega
    rw [List.getD_eq_getElem c.pillars 0 hi0, List.getD_eq_getElem c.pillars 0 hi1]
    exact chain'_getElem_lt _ hch i (i + 1) (by omega) hi1
  have hbound : ∀ t : ℚ, (t ≤ c.pillars.headI → c.zero_rate t = c.rates.headI) ∧
      (c.pillars.getLastI ≤ t → c.zero_rate t = c.rates.getLastI) := by
    intro t
    constructor
    · intro h
      rw [YieldCurve.zero_rate, if_pos h]
    · intro h
      by_cases h0 : t ≤ c.pillars.headI
      · rw [YieldCurve.zero_rate, if_pos h0]
        have hlen1 : c.pillars.length = 1 := by
          by_contra hne
          have hlen2 : 2 ≤ c.pillars.length := by omega
          have hlt := chain'_getElem_lt c.pillars hch 0 (c.pillars.length - 1)
            (by omega) (by omega)
          have hhead := headI_eq_getElem c.pillars (by omega)
          have hlast := getLastI_eq_getElem c.pillars (by omega) (by omega)
          rw [← hhead, ← hlast] at hlt
          linarith
        have hrlen1 : c.rates.length = 1 := by omega
        rw [headI_eq_getD c.rates (by omega), getLastI_eq_getD c.rates (by omega), hrlen1]
      · rw [YieldCurve.zero_rate, if_neg h0, if_pos h]
  refine ⟨?_, ?_, hbound, ?_⟩
  · intro i hi
    rcases Nat.eq_zero_or_pos i with h0 | hipos
    · subst h0
      rw [← headI_eq_getD c.pillars (by omega), (hbound _).1 (le_refl _),
        headI_eq_getD c.rates (by omega)]
    · obtain ⟨j, rfl⟩ : ∃ j, i = j + 1 := ⟨i - 1, by omega⟩
      have hj1 : j + 1 < c.pillars.length := hi
      have hlt := hadj j hj1
      have hb := zero_rate_between_getD c hv' (c.pillars.getD (j + 1) 0) j hj1 hlt (le_refl _)
      rw [hb]
      have hne : c.pillars.getD (j + 1) 0 - c.pillars.getD j 0 ≠ 0 :=
        sub_ne_zero.mpr (ne_of_gt hlt)
      rw [div_self hne, one_mul]
      ring
  · intro i hi1
    have hlt := hadj i hi1
    have hlo : c.pillars.getD i 0 < (c.pillars.getD i 0 + c.pillars.getD (i + 1) 0) / 2 := by
      linarith
    have hhi : (c.pillars.getD i 0 + c.pillars.getD (i + 1) 0) / 2 ≤
        c.pillars.getD (i + 1) 0 := by linarith
    rw [zero_rate_between_getD c hv' _ i hi1 hlo hhi]
    have hne : c.pillars.getD (i + 1) 0 - c.pillars.getD i 0 ≠ 0 :=
      sub_ne_zero.mpr (ne_of_gt hlt)
    have hhalf : ((c.pillars.getD i 0 + c.pillars.getD (i + 1) 0) / 2 - c.pillars.getD i 0) /
        (c.pillars.getD (i + 1) 0 - c.pillars.getD i 0) = 1 / 2 := by
      rw [div_eq_iff hne]
      ring
    rw [hhalf]
    ring
  · intro t i hi1 hlo hhi
    exact zero_rate_between_getD c hv' t i hi1 hlo (le_of_lt hhi)

/-- C3 witness: on the curve with pillars `[1, 2]`, rates `[0.03, 0.04]`, the
midpoint tenor `1.5` interpolates to `0.035`, the pillar `1` returns `0.03`
exactly, and tenor `5` extrapolates flat to `0.04`. -/
theorem zero_rate_spec_witness :
    (⟨[1, 2], [3/100, 4/100], 2⟩ : YieldCurve).zero_rate (3/2) = 7/200 ∧
    (⟨[1, 2], [3/100, 4/100], 2⟩ : YieldCurve).zero_rate 1 = 3/100 ∧
    (⟨[1, 2], [3/100, 4/100], 2⟩ : YieldCurve).zero_rate 5 = 4/100 := by
  have hval : (⟨[1, 2], [3/100, 4/100], 2⟩ : YieldCurve).Valid := by
    norm_num [YieldCurve.Valid, List.chain'_cons, List.chain'_singleton]
  have h := zero_rate_spec ⟨[1, 2], [3/100, 4/100], 2⟩ hval
  refine ⟨?_, ?_, ?_⟩
  · have hm := h.2.1 0 (by norm_num)
    norm_num at hm ⊢
    exact hm
  · have hp := h.1 0 (by norm_num)
    norm_num at hp ⊢
    exact hp
  · have hl := (h.2.2.1 5).2 (by norm_num [List.getLastI])
    norm_num [List.getLastI] at hl ⊢
    exact hl

/-- When every discount base along the schedule is positive, pricing succeeds
and the total price is the explicit discounted sum `priceCF`. -/
theorem price_from_curve_ok (c : YieldCurve) :
    ∀ cf : List CashflowRow, allBasesPos cf c →
      ∃ pl, price_from_curve c cf = .ok pl ∧ price pl = priceCF cf c := by
  intro cf
  induction cf with
  | nil =>
    intro _
    exact ⟨[], rfl, by simp [price, priceCF]⟩
  | cons r rs ih =>
    intro h
    have hr : 0 < 1 + c.zero_rate r.t / (c.m : ℚ) := h r (by simp)
    have hrs : allBasesPos rs c := fun x hx => h x (by simp [hx])
    obtain ⟨pl, hpl, hsum⟩ := ih hrs
    have hdf : c.df r.t = .ok (dfVal c r.t) := by
      simp only [YieldCurve.df]
      rw [if_neg (not_le.mpr hr)]
    refine ⟨⟨r.k, r.t, r.accrual, r.cashflow, r.coupon, dfVal c r.t,
      (r.cashflow : ℝ) * dfVal c r.t⟩ :: pl, ?_, ?_⟩
    · rw [price_from_curve, hdf, hpl]
    · simp [price, priceCF] at hsum ⊢
      rw [hsum]

/-- C6: when the schedule generates and all three pricings succeed,
`effective_duration_convexity` returns the base price together with
`(P_down - P_up) / (2 P dy)` and `(P_up + P_down - 2 P) / (P dy^2)` for the
parallel bumps by `± bump_bp` and `dy = bump_bp/10000`. -/
theorem effective_duration_convexity_spec (bond : BondSpec) (curve : YieldCurve)
    (bp : ℚ) (stub : Bool) (cf : List CashflowRow)
    (hcf : cashflows bond stub = .ok cf)
    (h0 : allBasesPos cf curve)
    (hup : allBasesPos cf (curve.bump_parallel bp))
    (hdn : allBasesPos cf (curve.bump_parallel (-bp))) :
    effective_duration_convexity bond curve bp stub = .ok
      ⟨priceCF cf curve,
        (priceCF cf (curve.bump_parallel (-bp)) - priceCF cf (curve.bump_parallel bp)) /
          (2 * priceCF cf curve * ((bp : ℝ) / 10000)),
        (priceCF cf (curve.bump_parallel bp) + priceCF cf (curve.bump_parallel (-bp)) -
            2 * priceCF cf curve) /
          (priceCF cf curve * ((bp : ℝ) / 10000) * ((bp : ℝ) / 10000))⟩ := by
  obtain ⟨pl0, h0ok, h0p⟩ := price_from_curve_ok curve cf h0
  obtain ⟨plu, huok, hupp⟩ := price_from_curve_ok (curve.bump_parallel bp) cf hup
  obtain ⟨pld, hdok, hdnp⟩ := price_from_curve_ok (curve.bump_parallel (-bp)) cf hdn
  simp only [effective_duration_convexity, hcf, h0ok, huok, hdok, h0p, hupp, hdnp]

/-- The one-year annual bond used as a concrete analytics witness prices to a
one-row schedule. -/
theorem cashflows_unit_bond :
    cashflows ⟨100, 1/10, 1, 1⟩ true = .ok [⟨1, 1, 1, 110, 10⟩] := by
  have hfl : ⌊(1 : ℚ) * ((1 : ℤ) : ℚ) + eps12⌋ = (1 : ℤ) := by
    rw [Int.floor_eq_iff]
    constructor <;> norm_num [eps12]
  have htn : Int.toNat (1 : ℤ) = 1 := rfl
  have hft : fullTimes (1 : ℤ) 1 = [1] := by
    norm_num [fullTimes, List.range_succ]
  have hgl : ([1] : List ℚ).getLastI = 1 := rfl
  simp only [cashflows, hfl, htn, hft, hgl]
  rw [if_neg (by norm_num), if_neg (by norm_num), if_neg (by norm_num), if_pos (by trivial),
    if_neg (by norm_num [eps10]), if_neg (by norm_num [eps12])]
  norm_num [mkRows, eps10, abs_sub_lt_iff]

/-- C6 witness: the finite-difference formulas at a concrete bond, flat
one-pillar curve and a 1bp bump. -/
theorem effective_duration_convexity_spec_witness :
    effective_duration_convexity ⟨100, 1/10, 1, 1⟩ ⟨[1], [1/20], 1⟩ 1 true = .ok
      ⟨priceCF [⟨1, 1, 1, 110, 10⟩] ⟨[1], [1/20], 1⟩,
        (priceCF [⟨1, 1, 1, 110, 10⟩] ((⟨[1], [1/20], 1⟩ : YieldCurve).bump_parallel (-1)) -
            priceCF [⟨1, 1, 1, 110, 10⟩] ((⟨[1], [1/20], 1⟩ : YieldCurve).bump_parallel 1)) /
          (2 * priceCF [⟨1, 1, 1, 110, 10⟩] ⟨[1], [1/20], 1⟩ * (((1 : ℚ) : ℝ) / 10000)),
        (priceCF [⟨1, 1, 1, 110, 10⟩] ((⟨[1], [1/20], 1⟩ : YieldCurve).bump_parallel 1) +
            priceCF [⟨1, 1, 1, 110, 10⟩] ((⟨[1], [1/20], 1⟩ : YieldCurve).bump_parallel (-1)) -
            2 * priceCF [⟨1, 1, 1, 110, 10⟩] ⟨[1], [1/20], 1⟩) /
          (priceCF [⟨1, 1, 1, 110, 10⟩] ⟨[1], [1/20], 1⟩ * (((1 : ℚ) : ℝ) / 10000) *
            (((1 : ℚ) : ℝ) / 10000))⟩ :=
  effective_duration_convexity_spec ⟨100, 1/10, 1, 1⟩ ⟨[1], [1/20], 1⟩ 1 true
    [⟨1, 1, 1, 110, 10⟩] cashflows_unit_bond
    (by
      intro r hr
      simp only [List.mem_singleton] at hr
      subst hr
      norm_num [YieldCurve.zero_rate])
    (by
      intro r hr
      simp only [List.mem_singleton] at hr
      subst hr
      norm_num [YieldCurve.zero_rate, YieldCurve.bump_parallel])
    (by
      intro r hr
      simp only [List.mem_singleton] at hr
      subst hr
      norm_num [YieldCurve.zero_rate, YieldCurve.bump_parallel])

/-- The key-rate loop over a pillar suffix starting at index `i` succeeds and
returns one `(pillar, krd)` pair per element when every single-pillar bump is
in range and prices without error. -/
theorem krdLoop_ok (cf : List CashflowRow) (curve : YieldCurve) (bp : ℚ) (base dy : ℝ) :
    ∀ (ps : List ℚ) (i : ℕ),
      (∀ k, k < ps.length → i + k < curve.rates.length) →
      (∀ k, k < ps.length → allBasesPos cf (curve.bumpKeySet (i + k) bp)) →
      ∃ out, krdLoop cf curve bp base dy i ps = .ok out ∧ out.length = ps.length ∧
        ∀ k, k < ps.length → out.getD k (0, 0) =
          (ps.getD k 0,
            -(priceCF cf (curve.bumpKeySet (i + k) bp) - base) / (base * dy)) := by
  intro ps
  induction ps with
  | nil =>
    intro i _ _
    exact ⟨[], rfl, rfl, by intro k hk; simp at hk⟩
  | cons ten rest ih =>
    intro i hrange hbases
    have hkey : curve.bump_key i bp = .ok (curve.bumpKeySet i bp) := by
      rw [YieldCurve.bump_key, if_pos (by simpa using hrange 0 (by simp))]
    obtain ⟨rows, hrows, hprice⟩ :=
      price_from_curve_ok (curve.bumpKeySet i bp) cf (by simpa using hbases 0 (by simp))
    obtain ⟨out, hout, hlen, hvals⟩ := ih (i + 1)
      (by
        intro k hk
        have := hrange (k + 1) (by simpa using Nat.succ_lt_succ hk)
        omega)
      (by
        intro k hk
        have h := hbases (k + 1) (by simpa using Nat.succ_lt_succ hk)
        have heq : i + (k + 1) = i + 1 + k := by omega
        rwa [heq] at h)
    refine ⟨(ten, -(price rows - base) / (base * dy)) :: out, ?_, by simp [hlen], ?_⟩
    · simp only [krdLoop, hkey, hrows, hout]
    · intro k hk
      match k with
      | 0 =>
        simp only [List.getD_cons_zero, Nat.add_zero]
        rw [hprice]
      | k + 1 =>
        simp only [List.getD_cons_succ]
        have hk' : k < rest.length := by simpa using hk
        rw [hvals k hk']
        have heq : i + 1 + k = i + (k + 1) := by omega
        rw [heq]

/-- C7: when the schedule generates and every single-pillar-bumped pricing
succeeds, `key_rate_durations` returns exactly one `(pillar, krd)` pair per
curve pillar, in pillar order, with
`krd = -(P_bumped - P_base)/(P_base*dy)` and `dy = bump_bp/10000`. -/
theorem key_rate_durations_spec (bond : BondSpec) (curve : YieldCurve) (bp : ℚ)
    (stub : Bool) (cf : List CashflowRow)
    (hcf : cashflows bond stub = .ok cf)
    (hlen : curve.pillars.length = curve.rates.length)
    (h0 : allBasesPos cf curve)
    (hb : ∀ i, i < curve.pillars.length → allBasesPos cf (curve.bumpKeySet i bp)) :
    ∃ out, key_rate_durations bond curve bp stub = .ok out ∧
      out.length = curve.pillars.length ∧
      ∀ i, i < curve.pillars.length → out.getD i (0, 0) =
        (curve.pillars.getD i 0,
          -(priceCF cf (curve.bumpKeySet i bp) - priceCF cf curve) /
            (priceCF cf curve * ((bp : ℝ) / 10000))) := by
  obtain ⟨pl0, h0ok, h0p⟩ := price_from_curve_ok curve cf h0
  obtain ⟨out, hout, hol, hovals⟩ := krdLoop_ok cf curve bp (price pl0) ((bp : ℝ) / 10000)
    curve.pillars 0 (by intro k hk; omega) (by intro k hk; simpa using hb k hk)
  refine ⟨out, ?_, hol, ?_⟩
  · simp only [key_rate_durations, hcf, h0ok]
    exact hout
  · intro i hi
    rw [hovals i hi, h0p]
    simp

/-- C7 witness: the one-pillar curve has a single key-rate entry with the
stated formula. -/
theorem key_rate_durations_spec_witness :
    ∃ out, key_rate_durations ⟨100, 1/10, 1, 1⟩ ⟨[1], [1/20], 1⟩ 1 true = .ok out ∧
      out.length = 1 ∧
      ∀ i, i < 1 → out.getD i (0, 0) =
        (([1] : List ℚ).getD i 0,
          -(priceCF [⟨1, 1, 1, 110, 10⟩]
                ((⟨[1], [1/20], 1⟩ : YieldCurve).bumpKeySet i 1) -
              priceCF [⟨1, 1, 1, 110, 10⟩] ⟨[1], [1/20], 1⟩) /
            (priceCF [⟨1, 1, 1, 110, 10⟩] ⟨[1], [1/20], 1⟩ * (((1 : ℚ) : ℝ) / 10000))) :=
  key_rate_durations_spec ⟨100, 1/10, 1, 1⟩ ⟨[1], [1/20], 1⟩ 1 true
    [⟨1, 1, 1, 110, 10⟩] cashflows_unit_bond rfl
    (by
      intro r hr
      simp only [List.mem_singleton] at hr
      subst hr
      norm_num [YieldCurve.zero_rate])
    (by
      intro i hi
      simp only [List.length_cons, List.length_nil] at hi
      have h0 : i = 0 := by omega
      subst h0
      intro r hr
      simp only [List.mem_singleton] at hr
      subst hr
      norm_num [YieldCurve.zero_rate, YieldCurve.bumpKeySet])

/-- C9: `bump_parallel(bp)` keeps pillars and compounding, adds `bp/10000` to
every rate, and bumping by `bp` then `-bp` restores the original curve
exactly. -/
theorem bump_parallel_spec (c : YieldCurve) (hc : c.Valid) (bp : ℚ) :
    (c.bump_parallel bp).pillars = c.pillars ∧
    (c.bump_parallel bp).m = c.m ∧
    (c.bump_parallel bp).rates = c.rates.map (fun r => r + bp / 10000) ∧
    (c.bump_parallel bp).bump_parallel (-bp) = c := by
  refine ⟨rfl, rfl, rfl, ?_⟩
  cases c with
  | mk ps rs m =>
    simp only [YieldCurve.bump_parallel, List.map_map, YieldCurve.mk.injEq,
      true_and, and_true]
    have : ((fun r => r + -bp / 10000) ∘ fun r => r + bp / 10000) = id := by
      funext r
      simp [Function.comp, neg_div]
    rw [this, List.map_id]

/-- C9 witness at a concrete two-pillar curve. -/
theorem bump_parallel_spec_witness :
    ((⟨[1, 2], [3/100, 4/100], 2⟩ : YieldCurve).bump_parallel 25).bump_parallel (-25) =
      ⟨[1, 2], [3/100, 4/100], 2⟩ :=
  (bump_parallel_spec ⟨[1, 2], [3/100, 4/100], 2⟩
    (by norm_num [YieldCurve.Valid, List.chain'_cons]) 25).2.2.2

/-- C5: on a priced schedule whose total price is exactly zero, both
`macaulay_duration` and `convexity_flat` return the not-a-number sentinel
(`none`) rather than failing; on nonzero price they return
`Σ t·pv / price` and `((Σ pv·t·(t+1/m)) / price) / (1+j/m)^2`. -/
theorem duration_convexity_spec (l : List PricedRow) (y : FlatYield) :
    (price l = 0 → macaulay_duration l = none ∧ convexity_flat l y = none) ∧
    (price l ≠ 0 →
      macaulay_duration l = some ((l.map (fun r => (r.t : ℝ) * r.pv)).sum / price l) ∧
      convexity_flat l y =
        some (((l.map (fun r => r.pv * (r.t : ℝ) * ((r.t : ℝ) + 1 / (y.m : ℝ)))).sum / price l) /
          ((1 + (y.j : ℝ) / (y.m : ℝ)) * (1 + (y.j : ℝ) / (y.m : ℝ))))) := by
  constructor
  · intro h
    constructor
    · rw [macaulay_duration, if_pos h]
    · rw [convexity_flat, if_pos h]
  · intro h
    constructor
    · rw [macaulay_duration, if_neg h]
    · rw [convexity_flat, if_neg h]

/-- C5 witness: a two-row schedule with `pv = 1, -1` prices to zero and gets
the sentinel; a one-row schedule with `pv = 2` gets the quotient. -/
theorem duration_convexity_spec_witness :
    (macaulay_duration [⟨1, 1, 1, 1, 1, 1, 1⟩, ⟨2, 2, 1, 1, 1, 1, -1⟩] = none ∧
      convexity_flat [⟨1, 1, 1, 1, 1, 1, 1⟩, ⟨2, 2, 1, 1, 1, 1, -1⟩] ⟨1/20, 2⟩ = none) ∧
    macaulay_duration [⟨1, 1, 1, 1, 1, 1, 2⟩] =
      some ((([⟨1, 1, 1, 1, 1, 1, 2⟩] : List PricedRow).map (fun r => (r.t : ℝ) * r.pv)).sum /
        price [⟨1, 1, 1, 1, 1, 1, 2⟩]) :=
  ⟨(duration_convexity_spec [⟨1, 1, 1, 1, 1, 1, 1⟩, ⟨2, 2, 1, 1, 1, 1, -1⟩] ⟨1/20, 2⟩).1
      (by norm_num [price]),
    ((duration_convexity_spec [⟨1, 1, 1, 1, 1, 1, 2⟩] ⟨1/20, 2⟩).2
      (by norm_num [price])).1⟩

/-- C4: `df(t)` fails with `InvalidRate` exactly when `1 + zeroRate(t)/m ≤ 0`
and otherwise returns `base^(-m t)`; and curve validity never depends on the
rate values (same-length replacement preserves it), so the failure can only
arise at the point of discounting. -/
theorem df_spec (c : YieldCurve) (hc : c.Valid) (t : ℚ) :
    (c.df t = .error .invalidRate ↔ 1 + c.zero_rate t / (c.m : ℚ) ≤ 0) ∧
    (¬(1 + c.zero_rate t / (c.m : ℚ) ≤ 0) → c.df t = .ok (dfVal c t)) ∧
    (∀ rs : List ℚ, rs.length = c.rates.length →
      YieldCurve.Valid ⟨c.pillars, rs, c.m⟩) := by
  refine ⟨?_, ?_, ?_⟩
  · by_cases h : 1 + c.zero_rate t / (c.m : ℚ) ≤ 0 <;> simp [YieldCurve.df, h]
  · intro h
    simp [YieldCurve.df, h]
  · intro rs hrs
    obtain ⟨hlen, hone, hpos, hchain, hm⟩ := hc
    exact ⟨hlen.trans hrs.symm, hone, hpos, hchain, hm⟩

/-- C4 witness: a valid curve whose only rate is `-3` with `m = 1` has
`base = -2 ≤ 0`, so discounting at `t = 1` raises `InvalidRate`. -/
theorem df_spec_witness :
    (⟨[1], [-3], 1⟩ : YieldCurve).df 1 = .error .invalidRate :=
  ((df_spec ⟨[1], [-3], 1⟩ (by norm_num [YieldCurve.Valid]) 1).1).mpr
    (by norm_num [YieldCurve.zero_rate])

end BondToolkit
